import Mathlib

/-!
Verification of BOUT++ (svalat fork) claims: a shallow embedding of the
custom C++ allocator (`src/sys/custom_cpp_allocator.cxx`), the command-line
option parser (`src/sys/optionsreader.cxx`), and spec-modelled parts of the
solver core (solver orchestrator, monitor scheduling, state packing, and the
Adams-Bashforth adaptive multistep scheme, whose implementation files are
not part of the extracted sources - only their headers are).
-/

namespace BoutAlloc

/-- `MAX_MEM` from custom_cpp_allocator.cxx : `1024UL*1024UL*1024UL` (1 GiB). -/
def MAX_MEM : Nat := 1024 * 1024 * 1024

/-- `sizeof(AllocatorChunk)`: the header holds one `size_t content_size`
(the `char data[0]` flexible member contributes nothing), i.e. 8 bytes. -/
def chunkHeaderSize : Nat := 8

/-- State of `AllocatorImplem`: the cached free chunks (offsets of chunk
headers inside the ummap region, in cache order), the bump cursor, and the
headers written by `buildChunk` (most recent write first: an association
list from chunk offset to the recorded `content_size`). -/
structure AllocatorImplem where
  freeChunks : List Nat
  cursor : Nat
  headers : List (Nat × Nat)
deriving Repr, DecidableEq

/-- Initial allocator state (`AllocatorImplem::AllocatorImplem`): empty
cache, cursor 0, no headers written. -/
def AllocatorImplem.initial : AllocatorImplem := ⟨[], 0, []⟩

/-- Read the `content_size` stored in a chunk header (most recent write to
that offset wins). Returns 0 for memory never written, as an arbitrary
value standing for uninitialised memory. -/
def readHeader (headers : List (Nat × Nat)) (addr : Nat) : Nat :=
  match headers with
  | [] => 0
  | (a, s) :: rest => if a = addr then s else readHeader rest addr

/-- `AllocatorImplem::buildChunk`: write `content_size` into the header at
`addr` and return the data pointer `chunk->data` (= `addr + header size`). -/
def buildChunk (st : AllocatorImplem) (addr content_size : Nat) :
    AllocatorImplem × Nat :=
  ({ st with headers := (addr, content_size) :: st.headers },
   addr + chunkHeaderSize)

/-- The cache-search loop of `AllocatorImplem::malloc`: find the first
cached chunk whose recorded `content_size` equals `size`; if found, erase
it from the cache and return its offset. -/
def findCached (headers : List (Nat × Nat)) (chunks : List Nat) (size : Nat) :
    Option (Nat × List Nat) :=
  match chunks with
  | [] => none
  | c :: rest =>
    if readHeader headers c = size then
      some (c, rest)
    else
      match findCached headers rest size with
      | none => none
      | some (c', rest') => some (c', c :: rest')

/-- Result of `AllocatorImplem::malloc`: either a `BoutException` is thrown,
or a (possibly null) data pointer is returned together with the new state.
Pointers are offsets into the ummap region; `none` is `NULL`. -/
def AllocatorImplem.malloc (st : AllocatorImplem) (size : Nat) :
    Except String (Option Nat × AllocatorImplem) :=
  -- min size
  if size = 0 then
    .ok (none, st)
  else
    -- search in cache
    match findCached st.headers st.freeChunks size with
    | some (c, rest) => .ok (some (c + chunkHeaderSize), { st with freeChunks := rest })
    | none =>
      -- check
      let total_size := size + chunkHeaderSize
      if st.cursor + total_size > MAX_MEM then
        .error "Memory overloaded in ummap-io, cannot allocate more !"
      else
        -- new alloc at the cursor, then advance the cursor
        let mem := st.cursor
        let st := { st with cursor := st.cursor + total_size }
        let (st, data) := buildChunk st mem size
        .ok (some data, st)

/-- `AllocatorImplem::free`: `NULL` is ignored; otherwise the chunk header
preceding the data pointer is appended to the free-chunk cache. Nothing is
ever returned to the system: the cursor and headers are untouched. -/
def AllocatorImplem.free (st : AllocatorImplem) (ptr : Option Nat) :
    AllocatorImplem :=
  match ptr with
  | none => st
  | some p => { st with freeChunks := st.freeChunks ++ [p - chunkHeaderSize] }

end BoutAlloc

namespace BoutOpts

/-- C++ `std::string`, embedded as a list of characters. -/
abbrev Str := List Char

/-- Whitespace characters stripped by `trim` (default strip set). -/
def isSpaceChar (c : Char) : Bool :=
  c = ' ' || c = '\t' || c = '\r' || c = '\n'

/-- Modelled from the spec: `trim` from utils.hxx/utils.cxx (not among the
extracted sources, used by `OptionsReader::parseCommandLine`): strips
leading and trailing whitespace from a string. -/
def trim (s : Str) : Str :=
  ((s.dropWhile isSpaceChar).reverse.dropWhile isSpaceChar).reverse

/-- `std::string::find_first_of` for a single character: index of the first
occurrence, if any. -/
def firstIdxOf (ch : Char) : Str → Option Nat
  | [] => none
  | c :: rest => if c = ch then some 0 else (firstIdxOf ch rest).map (· + 1)

/-- `std::string::find_last_of` for a single character: index of the last
occurrence, if any. -/
def lastIdxOf (ch : Char) : Str → Option Nat
  | [] => none
  | c :: rest =>
    match lastIdxOf ch rest with
    | some i => some (i + 1)
    | none => if c = ch then some 0 else none

/-- Value stored by an `options->set(...)` call: command-line switches set
the option to boolean `true`, `key=value` arguments store the value text. -/
inductive OptionValue
  | flagTrue
  | str (v : Str)
deriving DecidableEq, Repr

/-- One `options->set(...)` performed by `parseCommandLine`: the section
path reached through `getSection` calls, the final key, and the value. -/
structure SetOp where
  sections : List Str
  key : Str
  value : OptionValue
deriving DecidableEq, Repr

/-- Lines 94-99 of optionsreader.cxx: remove one leading `-`; a bare `-`
throws a BoutException. -/
def stripDash (b : Str) : Except String Str :=
  match b with
  | '-' :: rest =>
    if rest = [] then
      .error "Invalid command line option '-' found - maybe check whitespace?"
    else
      .ok rest
  | _ => .ok b

/-- Lines 101-119 of optionsreader.cxx: re-join arguments that the shell
split around an `=` sign (space after `=`, space before `=`, or both), and
return the remaining argument list. -/
def joinArg (buffer : Str) (rest : List Str) : Str × List Str :=
  match rest with
  | [] => (buffer, [])
  | next :: rest2 =>
    if buffer.getLast? = some '=' then
      -- space after the '=' sign
      (buffer ++ next, rest2)
    else if next.head? = some '=' then
      -- space before the '=' sign
      if next.length = 1 then
        match rest2 with
        | [] => (buffer ++ next, [])
        | n2 :: rest3 =>
          -- end of string, so space after the '=' sign too
          (buffer ++ next ++ n2, rest3)
      else (buffer ++ next, rest2)
    else (buffer, rest)

/-- The `while((scorepos = key.find_first_of(':')) != npos)` loop of
lines 136-142: peel leading `section:` prefixes off the key, trimming the
remainder each time. A fuel argument (the key length always suffices,
since each round strictly shortens the key) makes the recursion
structural. -/
def splitSectionsAux : Nat → Str → List Str × Str
  | 0, key => ([], key)
  | fuel + 1, key =>
    match firstIdxOf ':' key with
    | none => ([], key)
    | some i =>
      let sec := key.take i
      let key2 := trim (key.drop (i + 1))
      let (ss, k) := splitSectionsAux fuel key2
      (sec :: ss, k)

def splitSections (key : Str) : List Str × Str :=
  splitSectionsAux key.length key

/-- Lines 121-147 of optionsreader.cxx, applied to the joined buffer: no
`=` sets a boolean flag at the root; a single `=` splits into trimmed key
and value, peels `:`-separated section prefixes, and requires both parts
to be non-empty; `=` at two distinct positions throws. (`find_last_of`
is always defined here since `find_first_of` succeeded; `getD` supplies
the unused default.) -/
def parseOneBuffer (b : Str) : Except String SetOp :=
  match firstIdxOf '=' b with
  | none =>
    -- just set a flag to true, e.g. "restart" or "append" on command line
    .ok ⟨[], b, .flagTrue⟩
  | some s =>
    let e := (lastIdxOf '=' b).getD s
    if s ≠ e then
      .error "Multiple '=' in command-line argument"
    else
      let key := trim (b.take s)
      let value := trim (b.drop (s + 1))
      let sk := splitSections key
      if sk.2 = [] ∨ value = [] then
        .error "Empty key or value in command line"
      else
        .ok ⟨sk.1, sk.2, .str value⟩

/-- One iteration of the `for` loop of `parseCommandLine`: skip empty
arguments, strip a leading `-`, join around `=`, then parse the buffer.
Returns the set operation performed (if any) and the arguments left. -/
def processArg (a : Str) (rest : List Str) :
    Except String (Option SetOp × List Str) :=
  if a = [] then .ok (none, rest)
  else
    match stripDash a with
    | .error e => .error e
    | .ok b =>
      let jr := joinArg b rest
      match parseOneBuffer jr.1 with
      | .error e => .error e
      | .ok op => .ok (some op, jr.2)

/-- The argument loop, structural on a fuel that counts remaining
arguments (each iteration consumes at least the head, so
`args.length` fuel always suffices). -/
def parseLoop : Nat → List Str → Except String (List SetOp)
  | 0, _ => .ok []
  | _ + 1, [] => .ok []
  | fuel + 1, a :: rest =>
    match processArg a rest with
    | .error e => .error e
    | .ok (none, rest') => parseLoop fuel rest'
    | .ok (some op, rest') => (parseLoop fuel rest').map (op :: ·)

/-- `OptionsReader::parseCommandLine`, over `argv[1..]`: the sequence of
`options->set` operations performed, or the thrown BoutException. -/
def parseCommandLine (args : List Str) : Except String (List SetOp) :=
  parseLoop args.length args

end BoutOpts

namespace SolverSpec

/-! The solver-core implementation files (solver.cxx,
adams_bashforth.cxx) are not among the extracted sources: only the
headers solver.hxx and adams_bashforth.hxx are. The definitions below
are therefore modelled from the spec, keeping the header names. Field
values are embedded as rationals. -/

/-- `Solver::MonitorPosition` from solver.hxx. -/
inductive MonitorPosition
  | BACK
  | FRONT
deriving DecidableEq, Repr, BEq

/-- A registered output monitor: an observer identifier together with the
position requested at `addMonitor` time. -/
structure MonitorEntry where
  id : Nat
  pos : MonitorPosition
deriving DecidableEq, Repr

/-- Modelled from the spec: `Solver::addMonitor` (solver.cxx body absent;
solver.hxx declares it). The registration list records monitors in
insertion order together with their requested position. -/
def addMonitor (ms : List MonitorEntry) (m : MonitorEntry) : List MonitorEntry :=
  ms ++ [m]

/-- Is the monitor FRONT-positioned? -/
def isFront (m : MonitorEntry) : Bool :=
  match m.pos with
  | .FRONT => true
  | .BACK => false

/-- Is the monitor BACK-positioned? -/
def isBack (m : MonitorEntry) : Bool :=
  match m.pos with
  | .BACK => true
  | .FRONT => false

/-- Modelled from the spec: the order in which `Solver::call_monitors`
invokes the registered monitors: FRONT observers before BACK observers,
in insertion order within each bucket. -/
def callOrder (ms : List MonitorEntry) : List MonitorEntry :=
  ms.filter isFront ++ ms.filter isBack

/-- Modelled from the spec: the per-monitor frequency countdown of
`call_monitors`: decremented every output step, the monitor firing
exactly when it reaches zero, then reset from the monitor's frequency. -/
def tick (freq c : Nat) : Nat := if c = 0 then freq - 1 else c - 1

/-- Countdown values of all the registered monitors (frequencies `freqs`)
after `i` output steps; every countdown starts at zero so each monitor
fires at the very first output step. -/
def countersAfter (freqs : List Nat) : Nat → List Nat
  | 0 => freqs.map fun _ => 0
  | i + 1 => List.zipWith tick freqs (countersAfter freqs i)

/-- Countdown of a single monitor of frequency `f` after `i` steps. -/
def counterOne (f : Nat) : Nat → Nat
  | 0 => 0
  | i + 1 => tick f (counterOne f i)

/-- Does the monitor at index `k` fire at output step `i`? It does exactly
when its countdown is zero at that step. -/
def firesAt (freqs : List Nat) (i k : Nat) : Bool :=
  (countersAfter freqs i).getD k 1 == 0

/-- Outcome of one run of the time-integration scheme. -/
inductive RunOutcome
  | completed
  | monitorAbort
  | modelError (code : Int)
deriving DecidableEq, Repr

/-- Solver orchestrator states (spec section 4.5). -/
inductive SolverLifecycle
  | Constructed
  | Initialized
  | Running
  | Finished
  | Failed
deriving DecidableEq, Repr

/-- Observable calls made during `run()`. -/
inductive StepEvent
  | rhsCall (i : Nat)
  | monitorCall (i : Nat)
deriving DecidableEq, Repr

/-- Modelled from the spec: the output-interval loop of the scheme's
`run()` (solver.cxx / adams_bashforth.cxx bodies absent). At output step
`i` the user rhs is evaluated; a nonzero rhs status raises ModelError at
once and suppresses the monitor call for that step; otherwise the
monitors run, and a nonzero monitor return aborts the run cleanly. -/
def runLoop (rhsStatus monRet : Nat → Int) : Nat → Nat → RunOutcome × List StepEvent
  | _, 0 => (.completed, [])
  | i, n + 1 =>
    if rhsStatus i ≠ 0 then
      (.modelError (rhsStatus i), [.rhsCall i])
    else if monRet i ≠ 0 then
      (.monitorAbort, [.rhsCall i, .monitorCall i])
    else
      let r := runLoop rhsStatus monRet (i + 1) n
      (r.1, .rhsCall i :: .monitorCall i :: r.2)

/-- Result of `Solver::solve`: the returned status, the final lifecycle
state, and the observable calls made inside `run()`. -/
structure SolveResult where
  status : Int
  state : SolverLifecycle
  events : List StepEvent
deriving DecidableEq, Repr

/-- Modelled from the spec: `Solver::solve` (solver.cxx body absent;
declared at solver.hxx line 243). It transitions to Running, delegates to
the scheme's `run()`, and catches every error raised there at this
boundary: a completed run and a clean MonitorAbort give status 0 and
Finished, any other error is converted to the nonzero status 1 and
Failed. `solve` is a total function: no error propagates out of it. -/
def solve (rhsStatus monRet : Nat → Int) (nout : Nat) : SolveResult :=
  let r := runLoop rhsStatus monRet 0 nout
  match r.1 with
  | .completed => ⟨0, .Finished, r.2⟩
  | .monitorAbort => ⟨0, .Finished, r.2⟩
  | .modelError _ => ⟨1, .Failed, r.2⟩

/-- Internal state of the adaptive multistep scheme (adams_bashforth.hxx
lines 110-143): the externally visible evolving-variable containers, the
derivative history with its timestamps (newest first), the current time,
the internal timestep, and the current order. -/
structure SchemeState where
  registry : List ℚ
  history : List (ℚ × List ℚ)
  time : ℚ
  timestep : ℚ
  current_order : Nat
deriving DecidableEq, Repr

/-- A trial-step computation, abstracting the multistep predictor: from
the current time, the attempted dt and the current state it yields the
candidate new state, the new derivative sample, the embedded error
estimate, and the shrunk dt proposed after a rejection. -/
structure TrialStep where
  candidate : ℚ → ℚ → List ℚ → List ℚ
  deriv : ℚ → ℚ → List ℚ → List ℚ
  errEst : ℚ → ℚ → List ℚ → ℚ
  shrink : ℚ → ℚ → ℚ

/-- Modelled from the spec: one adaptive trial attempt of
`AdamsBashforthSolver::take_step` and its surrounding accept/reject
logic (adams_bashforth.cxx body absent; declared at adams_bashforth.hxx
lines 111-114). The candidate is computed into a separate result array;
acceptance (error estimate at most 1) commits it to the registry, pushes
the new derivative and time into the history evicting entries beyond the
maximum order, and advances the order by at most one; rejection only
shrinks the internal timestep. -/
def attempt (maxOrder : Nat) (ts : TrialStep) (s : SchemeState) (dt : ℚ) :
    Bool × SchemeState :=
  let err := ts.errEst s.time dt s.registry
  if err ≤ 1 then
    (true,
      { registry := ts.candidate s.time dt s.registry
        history := ((s.time + dt, ts.deriv s.time dt s.registry) :: s.history).take maxOrder
        time := s.time + dt
        timestep := dt
        current_order := min (s.current_order + 1) maxOrder })
  else
    (false, { s with timestep := ts.shrink dt err })

/-- `AdamsBashforthSolver::resetInternalFields` (declared at
adams_bashforth.hxx line 98), modelled from the spec: clears the history
and resets the current order to 1. -/
def resetInternalFields (s : SchemeState) : SchemeState :=
  { s with history := [], current_order := 1 }

/-- Errors raised by the adaptive retry loop. -/
inductive StepError
  | nonConvergence
deriving DecidableEq, Repr

/-- Modelled from the spec: the adaptive retry loop around `take_step`:
rejections retry with the shrunk timestep, and the total number of
rejections is bounded by `mxstep` (adams_bashforth.hxx line 130) -
exceeding it raises NonConvergenceError. -/
def retryLoop (maxOrder : Nat) (ts : TrialStep) :
    Nat → SchemeState → ℚ → Except StepError SchemeState
  | 0, _, _ => .error .nonConvergence
  | n + 1, s, dt =>
    match attempt maxOrder ts s dt with
    | (true, s') => .ok s'
    | (false, s') => retryLoop maxOrder ts n s' s'.timestep

/-- The timesteps attempted and rejected by `retryLoop`, in order. -/
def retryTrace (maxOrder : Nat) (ts : TrialStep) :
    Nat → SchemeState → ℚ → List ℚ
  | 0, _, _ => []
  | n + 1, s, dt =>
    match attempt maxOrder ts s dt with
    | (true, _) => []
    | (false, s') => dt :: retryTrace maxOrder ts n s' s'.timestep

/-- Scheme states reachable by the stepping scheme: from a fresh state
(empty history, order 1) through trial attempts with positive dt and
through `resetInternalFields`. -/
inductive Reachable (maxOrder : Nat) (ts : TrialStep) : SchemeState → Prop
  | init (reg : List ℚ) (t dt : ℚ) :
      Reachable maxOrder ts ⟨reg, [], t, dt, 1⟩
  | step (s : SchemeState) (dt : ℚ) (hdt : 0 < dt) :
      Reachable maxOrder ts s → Reachable maxOrder ts (attempt maxOrder ts s dt).2
  | reset (s : SchemeState) :
      Reachable maxOrder ts s → Reachable maxOrder ts (resetInternalFields s)

/-- A concrete trial step used to instantiate the theorems: candidate and
derivative keep the state, the error estimate always rejects (2 > 1). -/
def rejectingTrial : TrialStep :=
  { candidate := fun _ _ cur => cur
    deriv := fun _ _ cur => cur
    errEst := fun _ _ _ => 2
    shrink := fun dt _ => dt / 2 }

/-- A concrete trial step whose error estimate always accepts. -/
def acceptingTrial : TrialStep :=
  { candidate := fun _ _ cur => cur.map (· + 1)
    deriv := fun _ _ cur => cur
    errEst := fun _ _ _ => 0
    shrink := fun dt _ => dt / 2 }

/-- An evolving variable (spec section 4.1 / `Solver::VarStr` at
solver.hxx lines 321-331): its name, interior values, boundary values,
and whether the boundary region is being evolved. -/
structure EvolvingVar where
  name : String
  interior : List ℚ
  boundary : List ℚ
  evolve_bndry : Bool
deriving DecidableEq, Repr

/-- The values one variable contributes to the flat state buffer: the
interior points, plus the boundary points exactly when the variable
evolves its boundary. -/
def varData (v : EvolvingVar) : List ℚ :=
  v.interior ++ if v.evolve_bndry then v.boundary else []

/-- Number of buffer slots the variable occupies. -/
def varCount (v : EvolvingVar) : Nat := (varData v).length

/-- Modelled from the spec: `Solver::save_vars` / the packing direction of
`loop_vars` (solver.cxx body absent; declared at solver.hxx lines
390-395 and 456-458): each variable's values are copied into the flat
buffer at its precomputed offset. -/
def pack (vars : List EvolvingVar) : List ℚ :=
  (vars.map varData).flatten

/-- The precomputed per-variable offset: total count of the variables
packed before index `k`. -/
def offsetOf (vars : List EvolvingVar) (k : Nat) : Nat :=
  ((vars.take k).map varCount).sum

/-- Restore one variable's values from the buffer slice starting at its
offset: the interior always, the boundary only when it is evolved. -/
def unpackVar (v : EvolvingVar) (buf : List ℚ) : EvolvingVar :=
  { v with
    interior := buf.take v.interior.length
    boundary :=
      if v.evolve_bndry then
        (buf.drop v.interior.length).take v.boundary.length
      else v.boundary }

/-- Modelled from the spec: `Solver::load_vars` / the unpacking direction
of `loop_vars`: the exact inverse of `pack`. -/
def unpack (vars : List EvolvingVar) (buf : List ℚ) : List EvolvingVar :=
  match vars with
  | [] => []
  | v :: rest => unpackVar v buf :: unpack rest (buf.drop (varCount v))

end SolverSpec

namespace BoutAlloc

/-- If no cached chunk records `size`, the cache search fails. -/
lemma findCached_eq_none (headers : List (Nat × Nat)) (chunks : List Nat)
    (size : Nat) (h : ∀ c ∈ chunks, readHeader headers c ≠ size) :
    findCached headers chunks size = none := by
  induction chunks with
  | nil => rfl
  | cons c rest ih =>
    simp only [findCached]
    rw [if_neg (h c (by simp))]
    rw [ih fun x hx => h x (by simp [hx])]

/-- The cache search returns the first chunk recording `size` and removes
exactly that chunk. -/
lemma findCached_eq_some (headers : List (Nat × Nat)) (size : Nat)
    (pre post : List Nat) (c : Nat)
    (hpre : ∀ x ∈ pre, readHeader headers x ≠ size)
    (hc : readHeader headers c = size) :
    findCached headers (pre ++ c :: post) size = some (c, pre ++ post) := by
  induction pre with
  | nil => simp [findCached, hc]
  | cons x rest ih =>
    simp only [List.cons_append, findCached]
    rw [if_neg (hpre x (by simp))]
    have h2 := ih fun y hy => hpre y (by simp [hy])
    simp [h2]

/-- A failed cache search means no cached chunk records `size`. -/
lemma findCached_none_forall (headers : List (Nat × Nat)) (chunks : List Nat)
    (size : Nat) (h : findCached headers chunks size = none) :
    ∀ c ∈ chunks, readHeader headers c ≠ size := by
  induction chunks with
  | nil => simp
  | cons c rest ih =>
    simp only [findCached] at h
    by_cases hc : readHeader headers c = size
    · rw [if_pos hc] at h
      exact absurd h (by simp)
    · rw [if_neg hc] at h
      intro x hx
      rcases List.mem_cons.mp hx with hxc | hxr
      · rw [hxc]; exact hc
      · cases hfc : findCached headers rest size with
        | none => exact ih hfc x hxr
        | some p =>
          rw [hfc] at h
          obtain ⟨c', rest'⟩ := p
          exact absurd h (by simp)

/-- C8: freeing a pointer obtained from `malloc(s)` with `s > 0` keeps the
chunk in the free-chunk cache (the cursor and chunk headers are untouched,
so nothing returns to the system); a later `malloc(s)` reuses a cached
chunk exactly when some cached chunk's recorded content size equals `s`,
removing the first such chunk and returning its data pointer; with no
matching cached chunk (and room left), fresh memory is carved from the
cursor region. -/
theorem claim_C8 (st : AllocatorImplem) (s : Nat) (hs : s ≠ 0) :
    (∀ p st', st.malloc s = .ok (some p, st') →
      st'.free (some p) =
        { st' with freeChunks := st'.freeChunks ++ [p - chunkHeaderSize] })
    ∧ (∀ c pre post, st.freeChunks = pre ++ c :: post →
        (∀ x ∈ pre, readHeader st.headers x ≠ s) →
        readHeader st.headers c = s →
        st.malloc s = .ok (some (c + chunkHeaderSize),
          { st with freeChunks := pre ++ post }))
    ∧ ((∀ c ∈ st.freeChunks, readHeader st.headers c ≠ s) →
        st.cursor + s + chunkHeaderSize ≤ MAX_MEM →
        st.malloc s = .ok (some (st.cursor + chunkHeaderSize),
          { freeChunks := st.freeChunks
            cursor := st.cursor + (s + chunkHeaderSize)
            headers := (st.cursor, s) :: st.headers })) := by
  refine ⟨?_, ?_, ?_⟩
  · intro p st' _
    simp [AllocatorImplem.free]
  · intro c pre post hsplit hpre hc
    unfold AllocatorImplem.malloc
    rw [if_neg hs, hsplit, findCached_eq_some st.headers s pre post c hpre hc]
  · intro hnone hroom
    unfold AllocatorImplem.malloc
    rw [if_neg hs, findCached_eq_none st.headers st.freeChunks s hnone]
    simp only [buildChunk]
    rw [if_neg (by omega)]

/-- C8 witness: with one cached chunk of recorded size 16 at offset 0,
`malloc(16)` reuses it; with an empty cache, `malloc(16)` carves fresh
memory from the cursor, and freeing the returned pointer caches its
chunk. -/
theorem claim_C8_witness :
    (AllocatorImplem.malloc ⟨[0], 24, [(0, 16)]⟩ 16
        = .ok (some 8, ⟨[], 24, [(0, 16)]⟩))
    ∧ (AllocatorImplem.malloc ⟨[], 0, []⟩ 16
        = .ok (some 8, ⟨[], 24, [(0, 16)]⟩))
    ∧ (AllocatorImplem.free ⟨[], 24, [(0, 16)]⟩ (some 8)
        = ⟨[0], 24, [(0, 16)]⟩) := by
  refine ⟨?_, ?_, ?_⟩
  · exact (claim_C8 ⟨[0], 24, [(0, 16)]⟩ 16 (by decide)).2.1 0 [] []
      (by decide) (by decide) (by decide)
  · exact (claim_C8 ⟨[], 0, []⟩ 16 (by decide)).2.2 (by decide) (by decide)
  · exact (claim_C8 ⟨[], 0, []⟩ 16 (by decide)).1 8 ⟨[], 24, [(0, 16)]⟩
      ((claim_C8 ⟨[], 0, []⟩ 16 (by decide)).2.2 (by decide) (by decide))

/-- C9: `malloc(0)` returns the null pointer with the allocator state
(cache, cursor, headers) untouched; `free(NULL)` is a no-op; and `malloc`
throws a BoutException exactly when the request is nonzero, no cached
chunk matches it, and the cursor plus the requested total size would
exceed the 1 GiB `MAX_MEM` bound. -/
theorem claim_C9 (st : AllocatorImplem) (s : Nat) :
    (st.malloc 0 = .ok (none, st))
    ∧ (st.free none = st)
    ∧ ((∃ e, st.malloc s = .error e) ↔
        (s ≠ 0 ∧ (∀ c ∈ st.freeChunks, readHeader st.headers c ≠ s)
          ∧ st.cursor + (s + chunkHeaderSize) > MAX_MEM)) := by
  refine ⟨by simp [AllocatorImplem.malloc], rfl, ?_⟩
  constructor
  · rintro ⟨e, he⟩
    unfold AllocatorImplem.malloc at he
    by_cases h0 : s = 0
    · rw [if_pos h0] at he; exact absurd he (by simp)
    · rw [if_neg h0] at he
      cases hfc : findCached st.headers st.freeChunks s with
      | some p =>
        rw [hfc] at he
        obtain ⟨c, rest⟩ := p
        exact absurd he (by simp)
      | none =>
        rw [hfc] at he
        refine ⟨h0, findCached_none_forall _ _ _ hfc, ?_⟩
        by_cases hover : st.cursor + (s + chunkHeaderSize) > MAX_MEM
        · exact hover
        · rw [if_neg hover] at he
          exact absurd he (by simp [buildChunk])
  · rintro ⟨h0, hnone, hover⟩
    refine ⟨"Memory overloaded in ummap-io, cannot allocate more !", ?_⟩
    unfold AllocatorImplem.malloc
    rw [if_neg h0, findCached_eq_none st.headers st.freeChunks s hnone,
      if_pos hover]

/-- C9 witness: on a fresh allocator, `malloc(0)` yields `NULL` unchanged,
`free(NULL)` is a no-op, and a 1 GiB request throws. -/
theorem claim_C9_witness :
    (AllocatorImplem.malloc ⟨[], 0, []⟩ 0 = .ok (none, ⟨[], 0, []⟩))
    ∧ (AllocatorImplem.free ⟨[], 0, []⟩ none = ⟨[], 0, []⟩)
    ∧ (∃ e, AllocatorImplem.malloc ⟨[], 0, []⟩ (1024 * 1024 * 1024) = .error e) := by
  refine ⟨(claim_C9 ⟨[], 0, []⟩ 0).1, (claim_C9 ⟨[], 0, []⟩ 0).2.1, ?_⟩
  exact (claim_C9 ⟨[], 0, []⟩ (1024 * 1024 * 1024)).2.2.mpr
    ⟨by decide, by simp, by decide⟩

end BoutAlloc

namespace BoutOpts

/-- `find_first_of` fails exactly when the character does not occur. -/
lemma firstIdxOf_eq_none_iff (ch : Char) (s : Str) :
    firstIdxOf ch s = none ↔ s.count ch = 0 := by
  induction s with
  | nil => simp [firstIdxOf]
  | cons c rest ih =>
    by_cases hc : c = ch
    · simp [firstIdxOf, hc, List.count_cons]
    · simp [firstIdxOf, hc, List.count_cons, ih, Ne.symm hc]

/-- `find_last_of` fails exactly when the character does not occur. -/
lemma lastIdxOf_eq_none_iff (ch : Char) (s : Str) :
    lastIdxOf ch s = none ↔ s.count ch = 0 := by
  induction s with
  | nil => simp [lastIdxOf]
  | cons c rest ih =>
    simp only [lastIdxOf, List.count_cons]
    cases h : lastIdxOf ch rest with
    | some i =>
      have hne : rest.count ch ≠ 0 := fun h0 => by
        rw [(ih).mpr h0] at h; exact absurd h (by simp)
      constructor
      · intro hh; simp at hh
      · intro hh
        by_cases hcc : c = ch
        · simp [hcc] at hh
        · simp [hcc] at hh
          exact absurd hh hne
    | none =>
      have h0 := ih.mp h
      by_cases hc : c = ch
      · simp [hc, h0]
      · simp [hc, h0]

/-- With a single occurrence, first and last index agree. -/
lemma firstIdxOf_eq_lastIdxOf (ch : Char) (s : Str) (h : s.count ch = 1) :
    firstIdxOf ch s = lastIdxOf ch s := by
  induction s with
  | nil => rfl
  | cons c rest ih =>
    rw [List.count_cons] at h
    by_cases hc : c = ch
    · rw [if_pos (by simp [hc])] at h
      have h0 : rest.count ch = 0 := by omega
      have hl : lastIdxOf ch rest = none := (lastIdxOf_eq_none_iff ch rest).mpr h0
      simp [firstIdxOf, lastIdxOf, hc, hl]
    · rw [if_neg (by simp [hc])] at h
      have hf : firstIdxOf ch rest ≠ none := fun h0 => by
        rw [(firstIdxOf_eq_none_iff ch rest).mp h0] at h; exact absurd h (by simp)
      cases hfr : firstIdxOf ch rest with
      | none => exact absurd hfr hf
      | some i =>
        have hlr : lastIdxOf ch rest = some i := by rw [← ih h, hfr]
        simp [firstIdxOf, lastIdxOf, hc, hfr, hlr]

/-- With at least two occurrences, first and last index are distinct. -/
lemma firstIdxOf_lt_lastIdxOf (ch : Char) (s : Str) (h : 2 ≤ s.count ch) :
    ∃ i j, firstIdxOf ch s = some i ∧ lastIdxOf ch s = some j ∧ i < j := by
  induction s with
  | nil => simp at h
  | cons c rest ih =>
    rw [List.count_cons] at h
    by_cases hc : c = ch
    · rw [if_pos (by simp [hc])] at h
      have h1 : rest.count ch ≠ 0 := by omega
      have hl : lastIdxOf ch rest ≠ none := fun h0 => h1 ((lastIdxOf_eq_none_iff ch rest).mp h0)
      cases hlr : lastIdxOf ch rest with
      | none => exact absurd hlr hl
      | some j =>
        refine ⟨0, j + 1, ?_, ?_, by omega⟩
        · simp [firstIdxOf, hc]
        · simp [lastIdxOf, hlr]
    · rw [if_neg (by simp [hc])] at h
      obtain ⟨i, j, hfi, hlj, hij⟩ := ih h
      refine ⟨i + 1, j + 1, ?_, ?_, by omega⟩
      · simp [firstIdxOf, hc, hfi]
      · simp [lastIdxOf, hlj]

/-- A buffer with no `=` in it becomes a boolean flag set to true. -/
lemma parseOneBuffer_flag (b : Str) (h : b.count '=' = 0) :
    parseOneBuffer b = .ok ⟨[], b, .flagTrue⟩ := by
  unfold parseOneBuffer
  rw [(firstIdxOf_eq_none_iff _ _).mpr h]

/-- `parseOneBuffer` throws exactly on a repeated `=` or on an empty key
or value beside a single `=`. -/
lemma parseOneBuffer_error_iff (b : Str) :
    (∃ e, parseOneBuffer b = .error e) ↔
      (1 < b.count '=' ∨
        (b.count '=' = 1 ∧ ∃ s0, firstIdxOf '=' b = some s0 ∧
          ((splitSections (trim (b.take s0))).2 = []
            ∨ trim (b.drop (s0 + 1)) = []))) := by
  cases hf : firstIdxOf '=' b with
  | none =>
    have hc := (firstIdxOf_eq_none_iff _ _).mp hf
    simp [parseOneBuffer, hf, hc]
  | some s0 =>
    have hc0 : b.count '=' ≠ 0 := fun h0 => by
      rw [(firstIdxOf_eq_none_iff _ _).mpr h0] at hf; exact absurd hf (by simp)
    rcases Nat.lt_or_ge 1 (b.count '=') with hgt | hle
    · obtain ⟨i, j, hfi, hlj, hij⟩ := firstIdxOf_lt_lastIdxOf '=' b hgt
      rw [hf] at hfi
      obtain rfl : s0 = i := Option.some_inj.mp hfi
      have hne : s0 ≠ (lastIdxOf '=' b).getD s0 := by rw [hlj]; simpa using Nat.ne_of_lt hij
      simp only [parseOneBuffer, hf]
      rw [if_pos hne]
      simp [hgt]
    · have h1 : b.count '=' = 1 := by omega
      have hfl := firstIdxOf_eq_lastIdxOf '=' b h1
      have hld : (lastIdxOf '=' b).getD s0 = s0 := by rw [← hfl, hf]; rfl
      simp only [parseOneBuffer, hf]
      rw [if_neg (by rw [hld]; exact fun h => h rfl)]
      by_cases hek : (splitSections (trim (b.take s0))).2 = [] ∨ trim (b.drop (s0 + 1)) = []
      · rw [if_pos hek]
        constructor
        · intro _; exact Or.inr ⟨h1, s0, rfl, hek⟩
        · intro _; exact ⟨"Empty key or value in command line", rfl⟩
      · rw [if_neg hek]
        constructor
        · rintro ⟨e, he⟩; exact absurd he (by simp)
        · rintro (hbad | ⟨-, s1, hs1, hcond⟩)
          · omega
          · obtain rfl : s0 = s1 := Option.some_inj.mp hs1
            exact absurd hcond hek

/-- C10: a processed command-line argument (one leading `-` stripped,
arguments split around `=` re-joined) containing no `=` is treated as a
boolean flag set to true at the root section; processing throws a
BoutException exactly when the argument is a bare `-`, when the joined
text has `=` at more than one distinct position, or when the trimmed key
(after peeling `section:` prefixes) or the trimmed value beside a single
`=` is empty. -/
theorem claim_C10 (a : Str) (rest : List Str) (ha : a ≠ []) :
    (a = ['-'] → processArg a rest =
      .error "Invalid command line option '-' found - maybe check whitespace?")
    ∧ (∀ b, stripDash a = .ok b →
        (((joinArg b rest).1.count '=' = 0 →
            processArg a rest =
              .ok (some ⟨[], (joinArg b rest).1, .flagTrue⟩, (joinArg b rest).2))
        ∧ ((∃ e, processArg a rest = .error e) ↔
            (1 < (joinArg b rest).1.count '=' ∨
              ((joinArg b rest).1.count '=' = 1 ∧
                ∃ s0, firstIdxOf '=' (joinArg b rest).1 = some s0 ∧
                  ((splitSections (trim ((joinArg b rest).1.take s0))).2 = []
                    ∨ trim ((joinArg b rest).1.drop (s0 + 1)) = []))))))
    ∧ (a ≠ ['-'] → a.count '=' = 0 → rest = [] → ∃ b, stripDash a = .ok b ∧
        parseCommandLine [a] = .ok [⟨[], b, .flagTrue⟩]) := by
  refine ⟨?_, ?_, ?_⟩
  · rintro rfl
    simp [processArg, stripDash]
  · intro b hb
    constructor
    · intro h0
      simp [processArg, ha, hb, parseOneBuffer_flag _ h0]
    · have hiff := parseOneBuffer_error_iff (joinArg b rest).1
      cases hp : parseOneBuffer (joinArg b rest).1 with
      | error e =>
        exact iff_of_true ⟨e, by simp [processArg, ha, hb, hp]⟩ (hiff.mp ⟨e, hp⟩)
      | ok op =>
        constructor
        · rintro ⟨e, he⟩
          simp [processArg, ha, hb, hp] at he
        · intro hr
          obtain ⟨e, he⟩ := hiff.mpr hr
          rw [hp] at he
          exact absurd he (by simp)
  · intro hnd h0 hrest
    subst hrest
    have hok : ∃ b, stripDash a = .ok b ∧ b.count '=' = 0 := by
      match a, ha with
      | '-' :: r, _ =>
        have hr : r ≠ [] := fun h => hnd (by rw [h])
        refine ⟨r, by simp [stripDash, hr], ?_⟩
        simpa [List.count_cons] using h0
      | c :: r, _ =>
        by_cases hcdash : c = '-'
        · subst hcdash
          have hr : r ≠ [] := fun h => hnd (by rw [h])
          refine ⟨r, by simp [stripDash, hr], ?_⟩
          simpa [List.count_cons] using h0
        · exact ⟨c :: r, by unfold stripDash; split <;> simp_all, h0⟩
    obtain ⟨b, hb, hbc⟩ := hok
    refine ⟨b, hb, ?_⟩
    have hj : joinArg b [] = (b, []) := rfl
    have hflag : parseOneBuffer b = .ok ⟨[], b, .flagTrue⟩ :=
      parseOneBuffer_flag b hbc
    simp [parseCommandLine, parseLoop, processArg, ha, hb, hj, hflag, Except.map]

/-- C10 witness: `x` becomes the flag `x := true`; a bare `-` throws. -/
theorem claim_C10_witness :
    (∃ b, stripDash ['x'] = .ok b
      ∧ parseCommandLine [['x']] = .ok [⟨[], b, .flagTrue⟩])
    ∧ processArg ['-'] [] =
        .error "Invalid command line option '-' found - maybe check whitespace?" := by
  constructor
  · exact (claim_C10 ['x'] [] (by decide)).2.2 (by decide) (by decide) rfl
  · exact (claim_C10 ['-'] [] (by decide)).1 rfl

end BoutOpts

namespace SolverSpec

/-- An element of an appended list taken by index lies in the left part
(with a small index) or in the right part (with a large index). -/
lemma get_append_cases {α : Type} (l₁ l₂ : List α) (i : Nat)
    (hi : i < (l₁ ++ l₂).length) :
    ((l₁ ++ l₂).get ⟨i, hi⟩ ∈ l₁ ∧ i < l₁.length)
    ∨ ((l₁ ++ l₂).get ⟨i, hi⟩ ∈ l₂ ∧ l₁.length ≤ i) := by
  rcases Nat.lt_or_ge i l₁.length with hlt | hge
  · left
    refine ⟨?_, hlt⟩
    rw [List.get_eq_getElem, List.getElem_append_left hlt]
    exact List.getElem_mem _
  · right
    refine ⟨?_, hge⟩
    rw [List.get_eq_getElem, List.getElem_append_right hge]
    exact List.getElem_mem _

/-- Everything in the FRONT bucket is FRONT-positioned. -/
lemma mem_filter_front (regs : List MonitorEntry) (m : MonitorEntry)
    (hm : m ∈ regs.filter isFront) : m.pos = .FRONT := by
  have h := List.of_mem_filter hm
  cases hp : m.pos
  · rw [isFront, hp] at h; exact absurd h (by simp)
  · rfl

/-- Everything in the BACK bucket is BACK-positioned. -/
lemma mem_filter_back (regs : List MonitorEntry) (m : MonitorEntry)
    (hm : m ∈ regs.filter isBack) : m.pos = .BACK := by
  have h := List.of_mem_filter hm
  cases hp : m.pos
  · rfl
  · rw [isBack, hp] at h; exact absurd h (by simp)

/-- C5: in the monitor invocation order every FRONT-registered monitor is
invoked before every BACK-registered monitor, and within each position
bucket monitors are invoked in their insertion order (the FRONT and BACK
subsequences of the call order coincide with those of the registration
list). -/
theorem claim_C5 (regs : List MonitorEntry) :
    (∀ i j (hi : i < (callOrder regs).length) (hj : j < (callOrder regs).length),
      ((callOrder regs).get ⟨i, hi⟩).pos = .FRONT →
      ((callOrder regs).get ⟨j, hj⟩).pos = .BACK → i < j)
    ∧ (callOrder regs).filter isFront = regs.filter isFront
    ∧ (callOrder regs).filter isBack = regs.filter isBack := by
  have hfr : ∀ m ∈ regs.filter isFront, isFront m = true := fun m hm =>
    by rw [isFront, mem_filter_front regs m hm]
  have hfrB : ∀ m ∈ regs.filter isFront, isBack m = true → False := fun m hm hB =>
    by rw [isBack, mem_filter_front regs m hm] at hB; exact absurd hB (by simp)
  have hbk : ∀ m ∈ regs.filter isBack, isBack m = true := fun m hm =>
    by rw [isBack, mem_filter_back regs m hm]
  have hbkF : ∀ m ∈ regs.filter isBack, isFront m = true → False := fun m hm hF =>
    by rw [isFront, mem_filter_back regs m hm] at hF; exact absurd hF (by simp)
  refine ⟨?_, ?_, ?_⟩
  · intro i j hi hj hfi hbj
    have hiF : i < (regs.filter isFront).length := by
      rcases get_append_cases (regs.filter isFront) (regs.filter isBack) i hi
        with ⟨_, h⟩ | ⟨hm, _⟩
      · exact h
      · have h2 : ((callOrder regs).get ⟨i, hi⟩).pos = .BACK :=
          mem_filter_back regs _ hm
        rw [hfi] at h2
        exact absurd h2 (by decide)
    have hjB : (regs.filter isFront).length ≤ j := by
      rcases get_append_cases (regs.filter isFront) (regs.filter isBack) j hj
        with ⟨hm, _⟩ | ⟨_, h⟩
      · have h2 : ((callOrder regs).get ⟨j, hj⟩).pos = .FRONT :=
          mem_filter_front regs _ hm
        rw [hbj] at h2
        exact absurd h2 (by decide)
      · exact h
    omega
  · rw [callOrder, List.filter_append,
      List.filter_eq_self.mpr hfr,
      List.filter_eq_nil_iff.mpr hbkF, List.append_nil]
  · rw [callOrder, List.filter_append,
      List.filter_eq_nil_iff.mpr hfrB,
      List.filter_eq_self.mpr hbk, List.nil_append]

/-- C5 witness: two FRONT and two BACK monitors registered alternately are
called FRONT bucket first, each bucket in insertion order. -/
theorem claim_C5_witness :
    (callOrder [⟨0, .FRONT⟩, ⟨1, .BACK⟩, ⟨2, .FRONT⟩, ⟨3, .BACK⟩]).filter isFront
      = [⟨0, .FRONT⟩, ⟨2, .FRONT⟩]
    ∧ (0 : Nat) < 2 := by
  constructor
  · rw [(claim_C5 [⟨0, .FRONT⟩, ⟨1, .BACK⟩, ⟨2, .FRONT⟩, ⟨3, .BACK⟩]).2.1]
    decide
  · exact (claim_C5 [⟨0, .FRONT⟩, ⟨1, .BACK⟩, ⟨2, .FRONT⟩, ⟨3, .BACK⟩]).1 0 2
      (by decide) (by decide) (by decide) (by decide)

end SolverSpec

namespace SolverSpec

/-- Unpacking one variable from a buffer that starts with exactly its own
packed data restores the variable. -/
lemma unpackVar_varData (v : EvolvingVar) (t : List ℚ) :
    unpackVar v (varData v ++ t) = v := by
  obtain ⟨nm, it, bd, eb⟩ := v
  cases eb
  · have h1 : (it ++ [] ++ t).take it.length = it := by
      rw [List.append_nil, List.take_left]
    simp [unpackVar, varData, h1]
  · have h1 : (it ++ bd ++ t).take it.length = it := by
      rw [List.append_assoc, List.take_left]
    have h2 : ((it ++ bd ++ t).drop it.length).take bd.length = bd := by
      rw [List.append_assoc, List.drop_left, List.take_left]
    simp [unpackVar, varData, h1, h2]

/-- Unpacking from the packed buffer (with any tail) restores the
variables. -/
lemma unpack_pack_append (vars : List EvolvingVar) (t : List ℚ) :
    unpack vars (pack vars ++ t) = vars := by
  induction vars generalizing t with
  | nil => rfl
  | cons v rest ih =>
    have hp : pack (v :: rest) = varData v ++ pack rest := by
      simp [pack]
    rw [unpack, hp, List.append_assoc]
    rw [unpackVar_varData v (pack rest ++ t)]
    have hd : (varData v ++ (pack rest ++ t)).drop (varCount v) = pack rest ++ t := by
      rw [varCount, List.drop_left]
    rw [hd, ih]

/-- The per-variable offsets address exactly each variable's slice. -/
lemma pack_slice (vars : List EvolvingVar) (k : Nat) (hk : k < vars.length) :
    ((pack vars).drop (offsetOf vars k)).take (varCount (vars.get ⟨k, hk⟩))
      = varData (vars.get ⟨k, hk⟩) := by
  induction vars generalizing k with
  | nil => exact absurd hk (by simp)
  | cons v rest ih =>
    cases k with
    | zero =>
      have h0 : offsetOf (v :: rest) 0 = 0 := rfl
      have hp : pack (v :: rest) = varData v ++ pack rest := by simp [pack]
      rw [h0, List.drop_zero, hp]
      show (varData v ++ pack rest).take (varData v).length = varData v
      exact List.take_left _ _
    | succ k =>
      have hoff : offsetOf (v :: rest) (k + 1) = varCount v + offsetOf rest k := by
        simp [offsetOf]
      have hp : pack (v :: rest) = varData v ++ pack rest := by simp [pack]
      have hkr : k < rest.length := by simpa using hk
      have hdrop : (pack (v :: rest)).drop (offsetOf (v :: rest) (k + 1))
          = (pack rest).drop (offsetOf rest k) := by
        rw [hp, hoff, ← List.drop_drop]
        have hin : (varData v ++ pack rest).drop (varCount v) = pack rest := by
          rw [varCount]
          exact List.drop_left _ _
        rw [hin]
      rw [hdrop]
      exact ih k hkr

/-- C7: for a frozen set of registered variables, unpacking the packed
state buffer with no intervening mutation reproduces the original
variable values exactly (boundary points included only when the variable
evolves its boundary), and each variable's data occupies the slice of the
buffer starting at its precomputed offset. -/
theorem claim_C7 (vars : List EvolvingVar) :
    unpack vars (pack vars) = vars
    ∧ (∀ k (hk : k < vars.length),
        ((pack vars).drop (offsetOf vars k)).take (varCount (vars.get ⟨k, hk⟩))
          = varData (vars.get ⟨k, hk⟩)) := by
  constructor
  · have := unpack_pack_append vars []
    rwa [List.append_nil] at this
  · exact fun k hk => pack_slice vars k hk

/-- C7 witness: two variables, one evolving its boundary, round-trip
through the flat buffer; the second variable's slice sits at offset 3. -/
theorem claim_C7_witness :
    (unpack [⟨"n", [1, 2], [7], true⟩, ⟨"T", [3, 4], [9], false⟩]
        (pack [⟨"n", [1, 2], [7], true⟩, ⟨"T", [3, 4], [9], false⟩])
      = [⟨"n", [1, 2], [7], true⟩, ⟨"T", [3, 4], [9], false⟩])
    ∧ ((pack [⟨"n", [1, 2], [7], true⟩, ⟨"T", [3, 4], [9], false⟩]).drop
        (offsetOf [⟨"n", [1, 2], [7], true⟩, ⟨"T", [3, 4], [9], false⟩] 1)).take 2
      = [3, 4] := by
  constructor
  · exact (claim_C7 [⟨"n", [1, 2], [7], true⟩, ⟨"T", [3, 4], [9], false⟩]).1
  · exact (claim_C7 [⟨"n", [1, 2], [7], true⟩, ⟨"T", [3, 4], [9], false⟩]).2 1
      (by decide)

end SolverSpec

namespace SolverSpec

/-- A rejected attempt only shrinks the timestep; an accepted one commits
the candidate, pushes history, and advances time and order. -/
lemma attempt_cases (maxOrder : Nat) (ts : TrialStep) (s : SchemeState) (dt : ℚ) :
    (¬ ts.errEst s.time dt s.registry ≤ 1 ∧
      attempt maxOrder ts s dt
        = (false, { s with timestep := ts.shrink dt (ts.errEst s.time dt s.registry) }))
    ∨ (ts.errEst s.time dt s.registry ≤ 1 ∧
      attempt maxOrder ts s dt
        = (true,
          { registry := ts.candidate s.time dt s.registry
            history := ((s.time + dt, ts.deriv s.time dt s.registry) :: s.history).take maxOrder
            time := s.time + dt
            timestep := dt
            current_order := min (s.current_order + 1) maxOrder })) := by
  by_cases h : ts.errEst s.time dt s.registry ≤ 1
  · right
    exact ⟨h, by rw [attempt, if_pos h]⟩
  · left
    exact ⟨h, by rw [attempt, if_neg h]⟩

/-- C2: a trial step rejected by the adaptive error test leaves the
externally visible evolving-variable state identical; only an accepted
step writes the candidate values into the registry containers. -/
theorem claim_C2 (maxOrder : Nat) (ts : TrialStep) (s : SchemeState) (dt : ℚ) :
    ((attempt maxOrder ts s dt).1 = false →
      (attempt maxOrder ts s dt).2.registry = s.registry)
    ∧ ((attempt maxOrder ts s dt).1 = true →
      (attempt maxOrder ts s dt).2.registry = ts.candidate s.time dt s.registry) := by
  rcases attempt_cases maxOrder ts s dt with ⟨-, heq⟩ | ⟨-, heq⟩
  · rw [heq]
    exact ⟨fun _ => rfl, fun h => by simp at h⟩
  · rw [heq]
    exact ⟨fun h => by simp at h, fun _ => rfl⟩

/-- C2 witness: a concrete always-rejecting trial leaves the registry
bit-identical; a concrete accepting trial commits the candidate. -/
theorem claim_C2_witness :
    ((attempt 2 rejectingTrial ⟨[1], [], 0, 1, 1⟩ 1).2.registry = [1])
    ∧ ((attempt 2 acceptingTrial ⟨[1], [], 0, 1, 1⟩ 1).2.registry = [2]) := by
  constructor
  · exact (claim_C2 2 rejectingTrial ⟨[1], [], 0, 1, 1⟩ 1).1
      (by simp [attempt, rejectingTrial])
  · have h := (claim_C2 2 acceptingTrial ⟨[1], [], 0, 1, 1⟩ 1).2
      (by simp [attempt, acceptingTrial])
    rw [h]
    simp [acceptingTrial]
    norm_num

/-- C3: when the error estimate never satisfies the acceptance criterion,
the retry loop performs exactly `mxstep` rejected attempts and then
raises NonConvergenceError instead of retrying forever. -/
theorem claim_C3 (maxOrder : Nat) (ts : TrialStep) (mx : Nat) (s : SchemeState)
    (dt : ℚ) (h : ∀ t d cur, ¬ ts.errEst t d cur ≤ 1) :
    retryLoop maxOrder ts mx s dt = .error .nonConvergence
    ∧ (retryTrace maxOrder ts mx s dt).length = mx := by
  induction mx generalizing s dt with
  | zero => exact ⟨rfl, rfl⟩
  | succ n ih =>
    rcases attempt_cases maxOrder ts s dt with ⟨-, heq⟩ | ⟨hacc, -⟩
    · constructor
      · rw [retryLoop, heq]
        exact (ih _ _).1
      · rw [retryTrace, heq]
        simp [(ih _ _).2]
    · exact absurd hacc (h _ _ _)

/-- C3 witness: with `mxstep = 3` and an error estimate that never
accepts, there are exactly 3 rejections and then NonConvergenceError. -/
theorem claim_C3_witness :
    retryLoop 2 rejectingTrial 3 ⟨[1], [], 0, 1, 1⟩ 1
      = .error .nonConvergence
    ∧ (retryTrace 2 rejectingTrial 3 ⟨[1], [], 0, 1, 1⟩ 1).length = 3 :=
  claim_C3 2 rejectingTrial 3 ⟨[1], [], 0, 1, 1⟩ 1
    (fun _ _ _ => by norm_num [rejectingTrial])

/-- The reachability invariant of the derivative history: timestamps
strictly decreasing from the newest entry, every timestamp at most the
current time, and length bounded by the configured maximum order. -/
lemma reachable_invariant (maxOrder : Nat) (ts : TrialStep) (s : SchemeState)
    (h : Reachable maxOrder ts s) :
    List.Pairwise (· > ·) (s.history.map Prod.fst)
    ∧ (∀ e ∈ s.history, e.1 ≤ s.time)
    ∧ s.history.length ≤ maxOrder := by
  induction h with
  | init reg t dt => simp
  | step s dt hdt hr ih =>
    obtain ⟨hpw, hle, hlen⟩ := ih
    rcases attempt_cases maxOrder ts s dt with ⟨-, heq⟩ | ⟨-, heq⟩
    · rw [heq]
      exact ⟨hpw, hle, hlen⟩
    · rw [heq]
      dsimp only
      refine ⟨?_, ?_, ?_⟩
      · have hcons : List.Pairwise (· > ·)
            (((s.time + dt, ts.deriv s.time dt s.registry) :: s.history).map Prod.fst) := by
          rw [List.map_cons]
          refine List.pairwise_cons.mpr ⟨?_, hpw⟩
          intro y hy
          obtain ⟨e, he, rfl⟩ := List.mem_map.mp hy
          have h1 : e.1 ≤ s.time := hle e he
          have h2 : s.time < s.time + dt := by linarith
          exact lt_of_le_of_lt h1 h2
        rw [List.map_take]
        exact hcons.sublist (List.take_sublist _ _)
      · intro e he
        have he2 := List.mem_of_mem_take he
        rcases List.mem_cons.mp he2 with rfl | hmem
        · exact le_refl _
        · have h1 : e.1 ≤ s.time := hle e hmem
          linarith
      · exact List.length_take_le _ _
  | reset s hr ih => simp [resetInternalFields]

/-- C4: after every operation of the stepping scheme the derivative
history has strictly decreasing timestamps from the newest entry and
length at most the configured maximum order; a rejected attempt leaves
the history untouched, an accepted one pushes the newest sample and
evicts entries beyond the retained order, and `resetInternalFields`
empties it. -/
theorem claim_C4 (maxOrder : Nat) (ts : TrialStep) :
    (∀ s, Reachable maxOrder ts s →
      List.Pairwise (· > ·) (s.history.map Prod.fst)
      ∧ s.history.length ≤ maxOrder)
    ∧ (∀ s dt, (attempt maxOrder ts s dt).1 = false →
        (attempt maxOrder ts s dt).2.history = s.history)
    ∧ (∀ s dt, (attempt maxOrder ts s dt).1 = true →
        (attempt maxOrder ts s dt).2.history
          = ((s.time + dt, ts.deriv s.time dt s.registry) :: s.history).take maxOrder)
    ∧ (∀ s, (resetInternalFields s).history = []) := by
  refine ⟨?_, ?_, ?_, fun s => rfl⟩
  · intro s h
    exact ⟨(reachable_invariant maxOrder ts s h).1,
      (reachable_invariant maxOrder ts s h).2.2⟩
  · intro s dt hrej
    rcases attempt_cases maxOrder ts s dt with ⟨-, heq⟩ | ⟨-, heq⟩
    · rw [heq]
    · rw [heq] at hrej
      simp at hrej
  · intro s dt hacc
    rcases attempt_cases maxOrder ts s dt with ⟨-, heq⟩ | ⟨-, heq⟩
    · rw [heq] at hacc
      simp at hacc
    · rw [heq]

/-- C4 witness: from a fresh state, one accepted step (maximum order 2)
pushes a single history entry; the invariant holds at the result, a
rejecting attempt leaves the history empty, and reset clears it. -/
theorem claim_C4_witness :
    ((attempt 2 acceptingTrial ⟨[1], [], 0, 1, 1⟩ 1).2.history
      = [(1, [1])])
    ∧ ((attempt 2 rejectingTrial ⟨[1], [], 0, 1, 1⟩ 1).2.history = [])
    ∧ (List.Pairwise (· > ·)
        ((⟨[1], [], 0, 1, 1⟩ : SchemeState).history.map Prod.fst))
    ∧ (resetInternalFields ⟨[1], [(0, [1])], 0, 1, 1⟩).history = [] := by
  refine ⟨?_, ?_, ?_, (claim_C4 2 acceptingTrial).2.2.2 _⟩
  · have h := (claim_C4 2 acceptingTrial).2.2.1 ⟨[1], [], 0, 1, 1⟩ 1
      (by simp [attempt, acceptingTrial])
    rw [h]
    simp [acceptingTrial]
  · exact (claim_C4 2 rejectingTrial).2.1 ⟨[1], [], 0, 1, 1⟩ 1
      (by simp [attempt, rejectingTrial])
  · exact ((claim_C4 2 acceptingTrial).1 ⟨[1], [], 0, 1, 1⟩
      (Reachable.init [1] 0 1)).1

end SolverSpec

namespace SolverSpec

/-- The countdown list always has one entry per registered monitor. -/
lemma countersAfter_length (freqs : List Nat) (i : Nat) :
    (countersAfter freqs i).length = freqs.length := by
  induction i with
  | zero => simp [countersAfter]
  | succ n ih => simp [countersAfter, ih]

/-- Each monitor's countdown evolves independently: entry `k` of the
scheduler state is the single-monitor countdown of its own frequency. -/
lemma countersAfter_getD (freqs : List Nat) (i k : Nat) (hk : k < freqs.length) :
    (countersAfter freqs i).getD k 1 = counterOne (freqs.getD k 0) i := by
  induction i with
  | zero =>
    rw [countersAfter, counterOne]
    rw [List.getD_eq_getElem _ _ (by simpa using hk)]
    simp
  | succ n ih =>
    rw [countersAfter, counterOne]
    have hlen : k < (List.zipWith tick freqs (countersAfter freqs n)).length := by
      simp [countersAfter_length, hk]
    rw [List.getD_eq_getElem _ _ hlen, List.getElem_zipWith]
    rw [List.getD_eq_getElem _ _ hk] at ih ⊢
    rw [← ih]
    congr 1
    rw [List.getD_eq_getElem _ _ (by simp [countersAfter_length, hk])]

/-- Closed form of the single-monitor countdown. -/
lemma counterOne_eq (f : Nat) (hf : 0 < f) (i : Nat) :
    counterOne f i = (f - i % f) % f := by
  induction i with
  | zero => simp [counterOne]
  | succ n ih =>
    have hr : n % f < f := Nat.mod_lt _ hf
    rw [counterOne, ih, tick]
    rcases eq_or_ne f 1 with rfl | hf1
    · simp [Nat.mod_one]
    · have h1f : 1 % f = 1 := Nat.mod_eq_of_lt (by omega)
      have hsucc : (n + 1) % f = (n % f + 1) % f := by
        rw [Nat.add_mod, h1f]
      by_cases h0 : n % f = 0
      · have hc : (f - n % f) % f = 0 := by
          rw [h0, Nat.sub_zero, Nat.mod_self]
        have h01 : (n + 1) % f = 1 := by
          rw [hsucc, h0, Nat.zero_add, h1f]
        rw [if_pos hc, h01, Nat.mod_eq_of_lt (by omega)]
      · have hsub : (f - n % f) % f = f - n % f := Nat.mod_eq_of_lt (by omega)
        rw [hsub, if_neg (by omega)]
        by_cases hend : n % f + 1 = f
        · rw [hsucc, hend, Nat.mod_self, Nat.sub_zero, Nat.mod_self]
          omega
        · have hlt1 : n % f + 1 < f := by omega
          have hlt2 : f - (n % f + 1) < f := by omega
          rw [hsucc, Nat.mod_eq_of_lt hlt1, Nat.mod_eq_of_lt hlt2]
          omega

/-- A single countdown reaches zero exactly at multiples of the
frequency. -/
lemma counterOne_eq_zero_iff (f : Nat) (hf : 0 < f) (i : Nat) :
    counterOne f i = 0 ↔ i % f = 0 := by
  rw [counterOne_eq f hf i]
  have hr : i % f < f := Nat.mod_lt _ hf
  by_cases h0 : i % f = 0
  · rw [h0, Nat.sub_zero, Nat.mod_self]
  · rw [Nat.mod_eq_of_lt (by omega)]
    constructor
    · intro h; omega
    · intro h; exact absurd h h0

/-- C6: a monitor with frequency divisor `f` fires exactly at the output
steps that are multiples of `f` - once per `f` output steps -
independently of the frequencies of the other registered monitors. -/
theorem claim_C6 (freqs : List Nat) (hpos : ∀ f ∈ freqs, 0 < f) (k : Nat)
    (hk : k < freqs.length) :
    (∀ i, firesAt freqs i k = true ↔ i % freqs.getD k 0 = 0)
    ∧ (∀ i, firesAt freqs i k = firesAt [freqs.getD k 0] i 0)
    ∧ (∀ j, (Finset.filter (fun i => firesAt freqs i k = true)
        (Finset.Ico (j * freqs.getD k 0) ((j + 1) * freqs.getD k 0))).card = 1) := by
  have hmem : freqs.getD k 0 ∈ freqs := by
    rw [List.getD_eq_getElem _ _ hk]
    exact List.getElem_mem _
  have hf : 0 < freqs.getD k 0 := hpos _ hmem
  have hchar : ∀ i, firesAt freqs i k = true ↔ i % freqs.getD k 0 = 0 := by
    intro i
    rw [firesAt, beq_iff_eq, countersAfter_getD freqs i k hk]
    exact counterOne_eq_zero_iff _ hf i
  refine ⟨hchar, ?_, ?_⟩
  · intro i
    rw [firesAt, firesAt, countersAfter_getD freqs i k hk,
      countersAfter_getD [freqs.getD k 0] i 0 (by simp)]
    rfl
  · intro j
    have hset : Finset.filter (fun i => firesAt freqs i k = true)
        (Finset.Ico (j * freqs.getD k 0) ((j + 1) * freqs.getD k 0))
        = {j * freqs.getD k 0} := by
      ext i
      rw [Finset.mem_filter, Finset.mem_Ico, Finset.mem_singleton, hchar i]
      constructor
      · rintro ⟨⟨hlo, hhi⟩, hmod⟩
        obtain ⟨m, rfl⟩ := Nat.dvd_of_mod_eq_zero hmod
        rw [Nat.mul_comm j (freqs.getD k 0)] at hlo
        have hjm : j ≤ m := Nat.le_of_mul_le_mul_left hlo hf
        rw [Nat.mul_comm (j + 1) (freqs.getD k 0)] at hhi
        have hmj : m < j + 1 := Nat.lt_of_mul_lt_mul_left hhi
        have hm : m = j := by omega
        rw [hm, Nat.mul_comm]
      · rintro rfl
        refine ⟨⟨le_refl _, ?_⟩, Nat.mul_mod_left _ _⟩
        rw [Nat.succ_mul]
        omega
    rw [hset]
    exact Finset.card_singleton _

/-- C6 witness: a monitor with frequency 2 over a 6-output-interval run
fires at output indices 0, 2 and 4 only. -/
theorem claim_C6_witness :
    (firesAt [2] 2 0 = true ↔ 2 % 2 = 0)
    ∧ ((List.range 6).filter (fun i => firesAt [2] i 0) = [0, 2, 4]) := by
  constructor
  · exact (claim_C6 [2] (by decide) 0 (by decide)).1 2
  · decide

end SolverSpec

namespace SolverSpec

/-- If the user rhs first fails at step `i` (all earlier steps clean),
`run()` raises ModelError with that status and never calls the monitors
at step `i`. -/
lemma runLoop_first_rhs_failure (rhs mon : Nat → Int) :
    ∀ (n start i : Nat), start ≤ i → i < start + n → rhs i ≠ 0 →
    (∀ j, start ≤ j → j < i → rhs j = 0 ∧ mon j = 0) →
    (runLoop rhs mon start n).1 = .modelError (rhs i)
    ∧ StepEvent.monitorCall i ∉ (runLoop rhs mon start n).2 := by
  intro n
  induction n with
  | zero => intro start i h1 h2; omega
  | succ m ih =>
    intro start i h1 h2 hne hclean
    rcases Nat.eq_or_lt_of_le h1 with rfl | hlt
    · rw [runLoop, if_pos hne]
      exact ⟨rfl, by simp⟩
    · have hs : rhs start = 0 ∧ mon start = 0 := hclean start (le_refl _) hlt
      rw [runLoop, if_neg (by simp [hs.1]), if_neg (by simp [hs.2])]
      have hrec := ih (start + 1) i hlt (by omega) hne
        (fun j hj1 hj2 => hclean j (by omega) hj2)
      refine ⟨hrec.1, ?_⟩
      intro hmem
      rcases List.mem_cons.mp hmem with hct | hmem2
      · exact absurd hct (by simp)
      · rcases List.mem_cons.mp hmem2 with hct | hmem3
        · simp only [StepEvent.monitorCall.injEq] at hct
          omega
        · exact hrec.2 hmem3

/-- C1: `Solver::solve` returns status 0 exactly when the scheme's
`run()` completes or is stopped cleanly by a monitor (MonitorAbort), and
the nonzero status 1 for every error raised inside `run()`; the error is
caught at the solve boundary (solve is a total function into a status),
and an rhs failure suppresses the monitor call of that step. -/
theorem claim_C1 (rhs mon : Nat → Int) (nout : Nat) :
    ((solve rhs mon nout).status = 0 ↔
      ((runLoop rhs mon 0 nout).1 = .completed
        ∨ (runLoop rhs mon 0 nout).1 = .monitorAbort))
    ∧ (∀ c, (runLoop rhs mon 0 nout).1 = .modelError c →
        (solve rhs mon nout).status = 1 ∧ (solve rhs mon nout).state = .Failed)
    ∧ (∀ i, i < nout → rhs i ≠ 0 → (∀ j, j < i → rhs j = 0 ∧ mon j = 0) →
        (solve rhs mon nout).status = 1
        ∧ StepEvent.monitorCall i ∉ (solve rhs mon nout).events) := by
  refine ⟨?_, ?_, ?_⟩
  · cases h : (runLoop rhs mon 0 nout).1 <;> simp [solve, h]
  · intro c hc
    constructor <;> simp [solve, hc]
  · intro i hi hne hclean
    have hrun := runLoop_first_rhs_failure rhs mon nout 0 i (Nat.zero_le _)
      (by omega) hne (fun j _ hj2 => hclean j hj2)
    constructor
    · exact ((by simp [solve, hrun.1]) : (solve rhs mon nout).status = 1)
    · have hev : (solve rhs mon nout).events = (runLoop rhs mon 0 nout).2 := by
        cases h : (runLoop rhs mon 0 nout).1 <;> simp [solve, h]
      rw [hev]
      exact hrun.2

/-- C1 witness: rhs failing at step 1 of a 3-output run gives nonzero
solve status and no monitor call at step 1; an all-clean run returns 0. -/
theorem claim_C1_witness :
    ((solve (fun i => if i = 1 then 5 else 0) (fun _ => 0) 3).status = 1
      ∧ StepEvent.monitorCall 1 ∉
          (solve (fun i => if i = 1 then 5 else 0) (fun _ => 0) 3).events)
    ∧ ((solve (fun _ => 0) (fun _ => 0) 2).status = 0) := by
  constructor
  · exact (claim_C1 (fun i => if i = 1 then 5 else 0) (fun _ => 0) 3).2.2 1
      (by omega) (by decide)
      (fun j hj => by
        have hj0 : j = 0 := by omega
        rw [hj0]
        exact ⟨rfl, rfl⟩)
  · exact (claim_C1 (fun _ => 0) (fun _ => 0) 2).1.mpr (Or.inl (by decide))

end SolverSpec
